import Mathlib

/-!
# Verification of the LSP (Live Sequence Protocol) core

This development embeds the message-integrity code of the LSP repository
(`src/github.com/cmu440/lsp/checksum.go`, `message.go`, `params.go`) in Lean,
together with a model of the per-connection protocol engine built from the
specification (the engine implementation itself is not part of the sources;
only its interfaces and tests are).  All machine integers are embedded as
`Nat`/`Int` with explicit reductions modulo `2^16`/`2^32` where the Go code
uses `uint16`/`uint32` arithmetic.
-/

namespace LSP

/-! ## Checksum (checksum.go) -/

/-- Embeds Go `uint2Checksum` (checksum.go lines 14-24): the 32-bit value is
split into its two little-endian 16-bit halves (`lower`, `upper`) and the two
halves are added as `uint16` values (`lower + upper` in Go is a `uint16`
addition, so the carry out of bit 16 is discarded), then widened to 32 bits. -/
def uint2Checksum (value : Nat) : Nat :=
  let lower := value % 65536
  let upper := value / 65536 % 65536
  (lower + upper) % 65536

/-- Embeds Go `Int2Checksum` (checksum.go lines 10-12): the `int` argument is
truncated to `uint32` (reduction modulo `2^32`, which for Go's two's-complement
`int` is `value % 2^32` as an integer euclidean remainder) and passed to
`uint2Checksum`. -/
def Int2Checksum (value : Int) : Nat :=
  uint2Checksum (value % (2 ^ 32 : Int)).toNat

/-- The sequence of little-endian 16-bit chunks of a byte array, as read by the
loop of Go `ByteArray2Checksum` (checksum.go lines 30-45): chunk `i` is bytes
`2i, 2i+1` decoded as a little-endian `uint16`; when the length is odd the
final chunk is the last byte with a zero byte padded on the end. -/
def byteWords : List Nat → List Nat
  | [] => []
  | [b] => [b + 256 * 0]
  | b0 :: b1 :: rest => (b0 + 256 * b1) :: byteWords rest

/-- Embeds Go `ByteArray2Checksum` (checksum.go lines 27-48): the running
`uint32` sum of the 16-bit chunks; every `sum += uint32(tmp)` is an addition
modulo `2^32`. -/
def ByteArray2Checksum (value : List Nat) : Nat :=
  (byteWords value).foldl (fun sum tmp => (sum + tmp) % 2 ^ 32) 0

/-- Embeds the folding loop of Go `CalculateChecksum` (checksum.go lines
62-66): while the sum exceeds `0xffff`, replace it by
`(sum >> 16 & 0xffff) + (sum & 0xffff)`. -/
def foldHalves (sum : Nat) : Nat :=
  if 65535 < sum then foldHalves (sum / 65536 % 65536 + sum % 65536) else sum
termination_by sum
decreasing_by omega

/-- Embeds Go `CalculateChecksum` (checksum.go lines 52-71).  The four
`sum += ...` statements are `uint32` additions; since each contribution is
itself below `2^32`, their step-by-step reduction equals a single reduction of
the total modulo `2^32`.  After the folding loop the sum fits in 16 bits, so
Go's `^uint16(sum)` (bitwise complement of the low 16 bits) is `65535 - sum`. -/
def CalculateChecksum (connID seqNum size : Int) (payload : List Nat) : Nat :=
  let sum := (Int2Checksum connID + Int2Checksum seqNum + Int2Checksum size +
      ByteArray2Checksum payload) % 2 ^ 32
  65535 - foldHalves sum

/-! ### Spec-side checksum definitions (for the refinement claims) -/

/-- One's-complement addition of two 16-bit words: the carry out of bit 16 is
folded back into the sum (spec section 4.1, claim C1's reading). -/
def onesAdd (a b : Nat) : Nat :=
  let s := a + b
  if 65535 < s then s - 65536 + 1 else s

/-- One's-complement sum of a list of 16-bit words, with end-around carry at
each addition. -/
def onesSum (ws : List Nat) : Nat := ws.foldl onesAdd 0

/-- The two little-endian 16-bit halves of a 32-bit value, lower half first
(the word decomposition named by the spec for `ConnID`, `SeqNum`, `Size`). -/
def halves32 (v : Nat) : List Nat := [v % 65536, v / 65536 % 65536]

/-- The checksum exactly as claim C1 words it: the one's complement of the
one's-complement sum (all carries folded back, `onesAdd`) of the 16-bit words
of `ConnID`, `SeqNum`, `Size` (two little-endian halves each) and the payload
chunks. -/
def specChecksumC1 (connID seqNum size : Int) (payload : List Nat) : Nat :=
  65535 - onesSum (halves32 (connID % (2 ^ 32 : Int)).toNat ++
    halves32 (seqNum % (2 ^ 32 : Int)).toNat ++
    halves32 (size % (2 ^ 32 : Int)).toNat ++ byteWords payload)

/-- The two little-endian 16-bit halves of a 32-bit value added with the carry
out of bit 16 discarded (a plain mod-`2^16` addition).  This is the amended
reading of claim C1 forced by the code: each of `ConnID`, `SeqNum`, `Size`
contributes its half-sum truncated to 16 bits, not one's-complement folded. -/
def specHalfSumTrunc (v : Nat) : Nat := (v % 65536 + v / 65536 % 65536) % 65536

/-! ### Lemmas about the folding loop -/

lemma foldHalves_of_le {s : Nat} (h : s ≤ 65535) : foldHalves s = s := by
  rw [foldHalves]
  simp [Nat.not_lt.mpr h]

lemma foldHalves_le (s : Nat) : foldHalves s ≤ 65535 := by
  induction s using foldHalves.induct with
  | case1 s h ih => rwa [foldHalves, if_pos h]
  | case2 s h => rw [foldHalves, if_neg h]; omega

lemma foldHalves_mod (s : Nat) : s < 2 ^ 32 → foldHalves s % 65535 = s % 65535 := by
  induction s using foldHalves.induct with
  | case1 s h ih =>
    intro hs
    rw [foldHalves, if_pos h]
    rw [ih (by omega)]
    have hq : s / 65536 % 65536 = s / 65536 := Nat.mod_eq_of_lt (by omega)
    rw [hq]
    conv_rhs => rw [show s = s / 65536 + s % 65536 + 65535 * (s / 65536) by omega]
    rw [Nat.add_mul_mod_self_left]
  | case2 s h =>
    intro hs
    rw [foldHalves, if_neg h]

lemma foldHalves_eq_zero (s : Nat) : s < 2 ^ 32 → (foldHalves s = 0 ↔ s = 0) := by
  induction s using foldHalves.induct with
  | case1 s h ih =>
    intro hs
    rw [foldHalves, if_pos h]
    rw [ih (by omega)]
    omega
  | case2 s h =>
    intro hs
    rw [foldHalves, if_neg h]

/-! ### Lemmas about the chunking and the running sums -/

lemma byteWords_words_le (p : List Nat) :
    (∀ b ∈ p, b < 256) → ∀ w ∈ byteWords p, w ≤ 65535 := by
  induction p using byteWords.induct with
  | case1 => intro _ w hw; simp [byteWords] at hw
  | case2 b =>
    intro hb w hw
    simp only [byteWords, List.mem_singleton] at hw
    have := hb b (by simp)
    omega
  | case3 b0 b1 rest ih =>
    intro hb w hw
    simp only [byteWords, List.mem_cons] at hw
    rcases hw with h | h
    · have h0 := hb b0 (by simp)
      have h1 := hb b1 (by simp)
      omega
    · exact ih (fun b hbm => hb b (by simp [hbm])) w h

lemma byteWords_sum_bound (p : List Nat) :
    (∀ b ∈ p, b < 256) → 2 * (byteWords p).sum ≤ 65535 * (p.length + 1) := by
  induction p using byteWords.induct with
  | case1 => intro _; simp [byteWords]
  | case2 b =>
    intro hb
    have := hb b (by simp)
    simp only [byteWords, List.sum_cons, List.sum_nil, List.length_singleton]
    omega
  | case3 b0 b1 rest ih =>
    intro hb
    have h0 := hb b0 (by simp)
    have h1 := hb b1 (by simp)
    have hr := ih (fun b hbm => hb b (by simp [hbm]))
    simp only [byteWords, List.sum_cons, List.length_cons]
    omega

lemma foldl_add_mod (ws : List Nat) :
    ∀ a : Nat, ws.foldl (fun sum tmp => (sum + tmp) % 2 ^ 32) (a % 2 ^ 32) =
      (a + ws.sum) % 2 ^ 32 := by
  induction ws with
  | nil => intro a; simp
  | cons w ws ih =>
    intro a
    simp only [List.foldl_cons, List.sum_cons]
    rw [Nat.mod_add_mod, ih (a + w)]
    ring_nf

lemma ByteArray2Checksum_eq_sum (p : List Nat) :
    ByteArray2Checksum p = (byteWords p).sum % 2 ^ 32 := by
  have h := foldl_add_mod (byteWords p) 0
  simpa [ByteArray2Checksum] using h

lemma onesAdd_le {a b : Nat} (ha : a ≤ 65535) (hb : b ≤ 65535) :
    onesAdd a b ≤ 65535 := by
  simp only [onesAdd]
  split <;> omega

lemma onesAdd_mod (a b : Nat) : onesAdd a b % 65535 = (a + b) % 65535 := by
  simp only [onesAdd]
  split <;> omega

lemma onesAdd_eq_zero {a b : Nat} (ha : a ≤ 65535) (hb : b ≤ 65535) :
    onesAdd a b = 0 ↔ a + b = 0 := by
  simp only [onesAdd]
  split <;> omega

lemma onesSum_foldl_le (ws : List Nat) :
    ∀ acc, acc ≤ 65535 → (∀ w ∈ ws, w ≤ 65535) →
      ws.foldl onesAdd acc ≤ 65535 := by
  induction ws with
  | nil => intro acc hacc _; simpa using hacc
  | cons w ws ih =>
    intro acc hacc hw
    simp only [List.foldl_cons]
    exact ih _ (onesAdd_le hacc (hw w (by simp)))
      (fun x hx => hw x (by simp [hx]))

lemma onesSum_foldl_mod (ws : List Nat) :
    ∀ acc, acc ≤ 65535 → (∀ w ∈ ws, w ≤ 65535) →
      ws.foldl onesAdd acc % 65535 = (acc + ws.sum) % 65535 := by
  induction ws with
  | nil => intro acc _ _; simp
  | cons w ws ih =>
    intro acc hacc hw
    simp only [List.foldl_cons, List.sum_cons]
    rw [ih _ (onesAdd_le hacc (hw w (by simp))) (fun x hx => hw x (by simp [hx]))]
    have := onesAdd_mod acc w
    omega

lemma onesSum_foldl_eq_zero (ws : List Nat) :
    ∀ acc, acc ≤ 65535 → (∀ w ∈ ws, w ≤ 65535) →
      (ws.foldl onesAdd acc = 0 ↔ acc + ws.sum = 0) := by
  induction ws with
  | nil => intro acc _ _; simp
  | cons w ws ih =>
    intro acc hacc hw
    simp only [List.foldl_cons, List.sum_cons]
    rw [ih _ (onesAdd_le hacc (hw w (by simp))) (fun x hx => hw x (by simp [hx]))]
    have := onesAdd_eq_zero hacc (hw w (by simp))
    omega

/-! ## Claim C1 -/

/-- Claim C1 (counterexample): `CalculateChecksum` does not equal the one's
complement of the end-around-carry one's-complement sum of the 16-bit words.
At `connID = 0x1FFFF` the two halves of `ConnID` are `0xFFFF` and `0x0001`;
the code adds them as `uint16` values and loses the carry (giving word sum 0,
checksum `0xFFFF`), while the one's-complement sum folds the carry back in
(giving 1, checksum `0xFFFE`). -/
theorem calculateChecksum_not_onesComplement :
    CalculateChecksum 131071 0 0 [] ≠ specChecksumC1 131071 0 0 [] := by
  have h1 : CalculateChecksum 131071 0 0 [] = 65535 - foldHalves 0 := rfl
  have h2 : specChecksumC1 131071 0 0 [] = 65534 := by decide
  rw [h1, h2, foldHalves_of_le (by norm_num)]
  norm_num

/-- Claim C1 (amended): `CalculateChecksum connID seqNum size payload` is the
one's complement of the one's-complement sum (end-around carry) of: the
mod-`2^16` sum of the two little-endian halves of each of `ConnID`, `SeqNum`
and `Size` (the carry out of each half-pair addition is discarded, per
`uint2Checksum`), together with the payload's little-endian 16-bit chunks
(final odd byte zero-padded).  Stated for byte-valued payloads short enough
that the 32-bit accumulator cannot wrap (`length ≤ 65536` covers every legal
LSP datagram, whose size is bounded by 2000 bytes). -/
lemma specHalfSumTrunc_le (v : Nat) : specHalfSumTrunc v ≤ 65535 :=
  Nat.le_of_lt_succ (Nat.mod_lt _ (by norm_num))

/-- The code's fold of a 32-bit sum of 16-bit words agrees with the
one's-complement (end-around carry) sum of the words, as long as the total
does not overflow 32 bits. -/
lemma foldHalves_eq_onesSum (ws : List Nat) (hws : ∀ w ∈ ws, w ≤ 65535)
    (hlt : ws.sum < 2 ^ 32) : foldHalves ws.sum = onesSum ws := by
  have h1 := foldHalves_le ws.sum
  have h2 := foldHalves_mod ws.sum hlt
  have h3 := foldHalves_eq_zero ws.sum hlt
  have h4 := onesSum_foldl_le ws 0 (by norm_num) hws
  have h5 := onesSum_foldl_mod ws 0 (by norm_num) hws
  have h6 := onesSum_foldl_eq_zero ws 0 (by norm_num) hws
  simp only [onesSum]
  omega

theorem calculateChecksum_halfSumTrunc_onesComplement
    (connID seqNum size : Int) (payload : List Nat)
    (hb : ∀ b ∈ payload, b < 256) (hlen : payload.length ≤ 65536) :
    CalculateChecksum connID seqNum size payload =
      65535 - onesSum (specHalfSumTrunc ((connID % (2 ^ 32 : Int)).toNat) ::
        specHalfSumTrunc ((seqNum % (2 ^ 32 : Int)).toNat) ::
        specHalfSumTrunc ((size % (2 ^ 32 : Int)).toNat) :: byteWords payload) := by
  have hA : Int2Checksum connID = specHalfSumTrunc ((connID % (2 ^ 32 : Int)).toNat) := rfl
  have hB : Int2Checksum seqNum = specHalfSumTrunc ((seqNum % (2 ^ 32 : Int)).toNat) := rfl
  have hC : Int2Checksum size = specHalfSumTrunc ((size % (2 ^ 32 : Int)).toNat) := rfl
  have hstep : CalculateChecksum connID seqNum size payload =
      65535 - foldHalves ((Int2Checksum connID + Int2Checksum seqNum + Int2Checksum size +
        ByteArray2Checksum payload) % 2 ^ 32) := rfl
  rw [hstep, hA, hB, hC, ByteArray2Checksum_eq_sum]
  have hAle := specHalfSumTrunc_le ((connID % (2 ^ 32 : Int)).toNat)
  have hBle := specHalfSumTrunc_le ((seqNum % (2 ^ 32 : Int)).toNat)
  have hCle := specHalfSumTrunc_le ((size % (2 ^ 32 : Int)).toNat)
  have hSle : 2 * (byteWords payload).sum ≤ 65535 * (payload.length + 1) :=
    byteWords_sum_bound payload hb
  have hwords := byteWords_words_le payload hb
  have hlist : ∀ w ∈ specHalfSumTrunc ((connID % (2 ^ 32 : Int)).toNat) ::
      specHalfSumTrunc ((seqNum % (2 ^ 32 : Int)).toNat) ::
      specHalfSumTrunc ((size % (2 ^ 32 : Int)).toNat) :: byteWords payload, w ≤ 65535 := by
    intro w hw
    simp only [List.mem_cons] at hw
    rcases hw with rfl | rfl | rfl | hw
    · exact hAle
    · exact hBle
    · exact hCle
    · exact hwords w hw
  have hsum : (specHalfSumTrunc ((connID % (2 ^ 32 : Int)).toNat) ::
      specHalfSumTrunc ((seqNum % (2 ^ 32 : Int)).toNat) ::
      specHalfSumTrunc ((size % (2 ^ 32 : Int)).toNat) :: byteWords payload).sum =
      specHalfSumTrunc ((connID % (2 ^ 32 : Int)).toNat) +
        specHalfSumTrunc ((seqNum % (2 ^ 32 : Int)).toNat) +
        specHalfSumTrunc ((size % (2 ^ 32 : Int)).toNat) + (byteWords payload).sum := by
    simp only [List.sum_cons]
    ring
  have hlt : (specHalfSumTrunc ((connID % (2 ^ 32 : Int)).toNat) ::
      specHalfSumTrunc ((seqNum % (2 ^ 32 : Int)).toNat) ::
      specHalfSumTrunc ((size % (2 ^ 32 : Int)).toNat) :: byteWords payload).sum < 2 ^ 32 := by
    rw [hsum]; omega
  have harg : (specHalfSumTrunc ((connID % (2 ^ 32 : Int)).toNat) +
      specHalfSumTrunc ((seqNum % (2 ^ 32 : Int)).toNat) +
      specHalfSumTrunc ((size % (2 ^ 32 : Int)).toNat) +
      (byteWords payload).sum % 2 ^ 32) % 2 ^ 32 =
      (specHalfSumTrunc ((connID % (2 ^ 32 : Int)).toNat) ::
        specHalfSumTrunc ((seqNum % (2 ^ 32 : Int)).toNat) ::
        specHalfSumTrunc ((size % (2 ^ 32 : Int)).toNat) :: byteWords payload).sum := by
    rw [hsum]; omega
  rw [harg, foldHalves_eq_onesSum _ hlist hlt]

/-- Concrete instance of the amended claim C1 at `connID = 1`, `seqNum = 2`,
`size = 3`, `payload = [5, 6, 7]`. -/
theorem calculateChecksum_halfSumTrunc_onesComplement_witness :
    CalculateChecksum 1 2 3 [5, 6, 7] =
      65535 - onesSum (specHalfSumTrunc (((1 : Int) % (2 ^ 32 : Int)).toNat) ::
        specHalfSumTrunc (((2 : Int) % (2 ^ 32 : Int)).toNat) ::
        specHalfSumTrunc (((3 : Int) % (2 ^ 32 : Int)).toNat) :: byteWords [5, 6, 7]) :=
  calculateChecksum_halfSumTrunc_onesComplement 1 2 3 [5, 6, 7]
    (by decide) (by decide)

/-! ## Claim C10 -/

lemma byteWords_append_zero (p : List Nat) :
    p.length % 2 = 1 → byteWords (p ++ [0]) = byteWords p := by
  induction p using byteWords.induct with
  | case1 => intro h; simp at h
  | case2 b => intro _; rfl
  | case3 b0 b1 rest ih =>
    intro h
    simp only [List.length_cons] at h
    simp only [List.cons_append, byteWords, List.append_eq]
    rw [ih (by omega)]

/-- Claim C10: appending a zero byte to an odd-length payload does not change
`ByteArray2Checksum` (the odd final byte was already zero-padded into its
16-bit chunk), hence `CalculateChecksum` cannot distinguish the two payloads
when `ConnID`, `SeqNum` and `Size` are unchanged. -/
theorem byteArray2Checksum_pad_zero (p : List Nat) (hodd : p.length % 2 = 1) :
    ByteArray2Checksum (p ++ [0]) = ByteArray2Checksum p ∧
      ∀ connID seqNum size : Int,
        CalculateChecksum connID seqNum size (p ++ [0]) =
          CalculateChecksum connID seqNum size p := by
  have hwords := byteWords_append_zero p hodd
  have hB : ByteArray2Checksum (p ++ [0]) = ByteArray2Checksum p := by
    simp only [ByteArray2Checksum, hwords]
  refine ⟨hB, fun connID seqNum size => ?_⟩
  have h1 : CalculateChecksum connID seqNum size (p ++ [0]) =
      65535 - foldHalves ((Int2Checksum connID + Int2Checksum seqNum + Int2Checksum size +
        ByteArray2Checksum (p ++ [0])) % 2 ^ 32) := rfl
  have h2 : CalculateChecksum connID seqNum size p =
      65535 - foldHalves ((Int2Checksum connID + Int2Checksum seqNum + Int2Checksum size +
        ByteArray2Checksum p) % 2 ^ 32) := rfl
  rw [h1, h2, hB]

/-- Concrete instance of claim C10 at `payload = [7]`. -/
theorem byteArray2Checksum_pad_zero_witness :
    ByteArray2Checksum [7, 0] = ByteArray2Checksum [7] ∧
      ∀ connID seqNum size : Int,
        CalculateChecksum connID seqNum size [7, 0] =
          CalculateChecksum connID seqNum size [7] :=
  byteArray2Checksum_pad_zero [7] (by decide)

/-! ## Claim C8 -/

lemma uint2Checksum_le (v : Nat) : uint2Checksum v ≤ 65535 :=
  Nat.le_of_lt_succ (Nat.mod_lt _ (by norm_num))

lemma Int2Checksum_le (v : Int) : Int2Checksum v ≤ 65535 :=
  uint2Checksum_le _

/-- Changing the byte at position `i` changes the chunk sum by the byte delta,
weighted 1 for the low (even-index) byte of a chunk and 256 for the high
(odd-index) byte. -/
lemma byteWords_set_sum (p : List Nat) :
    ∀ i b, i < p.length →
      (byteWords (p.set i b)).sum + p.getD i 0 * (if i % 2 = 0 then 1 else 256)
        = (byteWords p).sum + b * (if i % 2 = 0 then 1 else 256) := by
  induction p using byteWords.induct with
  | case1 => intro i b h; simp at h
  | case2 b0 =>
    intro i b h
    simp only [List.length_singleton] at h
    have hi : i = 0 := by omega
    subst hi
    simp [byteWords]
    omega
  | case3 b0 b1 rest ih =>
    intro i b h
    match i with
    | 0 =>
      simp [byteWords, List.getD_cons_zero]
      all_goals omega
    | 1 =>
      simp [byteWords, List.getD_cons_succ, List.getD_cons_zero]
      all_goals omega
    | (n + 2) =>
      simp only [List.length_cons] at h
      have hn : n < rest.length := by omega
      have := ih n b hn
      have hpar : (n + 2) % 2 = n % 2 := by omega
      simp only [List.set_cons_succ, byteWords, List.sum_cons,
        List.getD_cons_succ, hpar]
      omega

/-- Core collision-freeness argument: two pre-fold totals that differ by a
single weighted byte delta cannot fold to the same 16-bit value.  The totals
agree modulo 65535 only if the 32-bit wrap absorbs a delta of exactly `±1`,
which forces the wrapped pair `{0, 2^32 - 1}`; the folding loop sends those to
the distinct values 0 and 65535. -/
lemma foldHalves_no_collision (A S S' old bb w : Nat)
    (hA : A ≤ 196605) (hold : old < 256) (hb : bb < 256)
    (hw : w = 1 ∨ w = 256) (hne : bb ≠ old)
    (hdelta : S' + old * w = S + bb * w)
    (hfe : foldHalves ((A + S') % 2 ^ 32) = foldHalves ((A + S) % 2 ^ 32)) :
    False := by
  have hs'lt : (A + S') % 2 ^ 32 < 2 ^ 32 := Nat.mod_lt _ (by norm_num)
  have hslt : (A + S) % 2 ^ 32 < 2 ^ 32 := Nat.mod_lt _ (by norm_num)
  have hcong : (A + S') % 2 ^ 32 % 65535 = (A + S) % 2 ^ 32 % 65535 := by
    rw [← foldHalves_mod _ hs'lt, ← foldHalves_mod _ hslt, hfe]
  have hzero : (A + S') % 2 ^ 32 = 0 ↔ (A + S) % 2 ^ 32 = 0 := by
    rw [← foldHalves_eq_zero _ hs'lt, ← foldHalves_eq_zero _ hslt, hfe]
  set s' := (A + S') % 2 ^ 32 with hsPdef
  set s := (A + S) % 2 ^ 32 with hsdef
  set k' := (A + S') / 2 ^ 32 with hkPdef
  set k := (A + S) / 2 ^ 32 with hkdef
  set l' := s' / 65535 with hlPdef
  set l := s / 65535 with hldef
  have hsplit' : A + S' = 2 ^ 32 * k' + s' := by rw [hsPdef, hkPdef]; omega
  have hsplit : A + S = 2 ^ 32 * k + s := by rw [hsdef, hkdef]; omega
  have hlsplit' : s' = 65535 * l' + s' % 65535 := by rw [hlPdef]; omega
  have hlsplit : s = 65535 * l + s % 65535 := by rw [hldef]; omega
  have e1 : 2 ^ 32 * k' + s' + old * w = 2 ^ 32 * k + s + bb * w := by omega
  have e3 : k ≤ k' + 1 ∧ k' ≤ k + 1 := by
    rcases hw with rfl | rfl <;> omega
  have key : 65535 * (65537 * k' + l') + (k' + old * w) =
      65535 * (65537 * k + l) + (k + bb * w) := by
    rcases hw with rfl | rfl <;> omega
  have huv : k' + old * w = k + bb * w := by
    rcases hw with rfl | rfl <;> omega
  rcases hw with rfl | rfl
  · omega
  · omega

/-- Claim C8: mutating any single byte of the payload changes
`CalculateChecksum` (for byte-valued payloads), so a receiver that recomputes
the checksum detects any single-byte corruption.  The proof tracks the 32-bit
accumulator modulo 65535: a single-byte change moves the pre-fold total by
`±delta` or `±256*delta` with `0 < 256*delta < 65535`, and the only residue
collisions a 32-bit wrap could produce are the pair `{0, 0xFFFFFFFF}`, which
the folding loop maps to the distinct values 0 and 0xFFFF. -/
theorem calculateChecksum_detects_byte_change
    (connID seqNum size : Int) (payload : List Nat) (i : Nat) (b : Nat)
    (hi : i < payload.length) (hb : ∀ x ∈ payload, x < 256) (hbb : b < 256)
    (hne : b ≠ payload.getD i 0) :
    CalculateChecksum connID seqNum size (payload.set i b) ≠
      CalculateChecksum connID seqNum size payload := by
  intro heq
  have h1 : CalculateChecksum connID seqNum size (payload.set i b) =
      65535 - foldHalves ((Int2Checksum connID + Int2Checksum seqNum + Int2Checksum size +
        ByteArray2Checksum (payload.set i b)) % 2 ^ 32) := rfl
  have h2 : CalculateChecksum connID seqNum size payload =
      65535 - foldHalves ((Int2Checksum connID + Int2Checksum seqNum + Int2Checksum size +
        ByteArray2Checksum payload) % 2 ^ 32) := rfl
  rw [h1, h2, ByteArray2Checksum_eq_sum, ByteArray2Checksum_eq_sum,
    Nat.add_mod_mod, Nat.add_mod_mod] at heq
  have hI1 := Int2Checksum_le connID
  have hI2 := Int2Checksum_le seqNum
  have hI3 := Int2Checksum_le size
  have hold : payload.getD i 0 < 256 := by
    have hmem : payload.getD i 0 ∈ payload := by
      rw [List.getD_eq_getElem payload 0 hi]
      exact List.getElem_mem hi
    exact hb _ hmem
  have hdelta := byteWords_set_sum payload i b hi
  have hf1 := foldHalves_le ((Int2Checksum connID + Int2Checksum seqNum + Int2Checksum size +
    (byteWords (payload.set i b)).sum) % 2 ^ 32)
  have hf2 := foldHalves_le ((Int2Checksum connID + Int2Checksum seqNum + Int2Checksum size +
    (byteWords payload).sum) % 2 ^ 32)
  have hfeq : foldHalves ((Int2Checksum connID + Int2Checksum seqNum + Int2Checksum size +
      (byteWords (payload.set i b)).sum) % 2 ^ 32) =
      foldHalves ((Int2Checksum connID + Int2Checksum seqNum + Int2Checksum size +
      (byteWords payload).sum) % 2 ^ 32) := by omega
  refine foldHalves_no_collision
    (Int2Checksum connID + Int2Checksum seqNum + Int2Checksum size)
    (byteWords payload).sum (byteWords (payload.set i b)).sum
    (payload.getD i 0) b (if i % 2 = 0 then 1 else 256)
    (by omega) hold hbb ?_ hne hdelta hfeq
  split <;> simp

/-- Concrete instance of claim C8: flipping the first payload byte of
`[1, 2]` from 1 to 0 changes the checksum. -/
theorem calculateChecksum_detects_byte_change_witness :
    CalculateChecksum 1 1 2 ([1, 2].set 0 0) ≠ CalculateChecksum 1 1 2 [1, 2] :=
  calculateChecksum_detects_byte_change 1 1 2 [1, 2] 0 0
    (by decide) (by decide) (by decide) (by decide)

/-! ## Messages and parameters (message.go, params.go) -/

/-- Embeds Go `MsgType` (message.go lines 11-18). -/
inductive MsgType where
  | MsgConnect
  | MsgData
  | MsgAck
  | MsgCAck
deriving DecidableEq, Repr

/-- Embeds Go `Message` (message.go lines 21-28); the payload is a byte list
and the 16-bit checksum a `Nat` below `2^16`. -/
structure Message where
  Type' : MsgType
  ConnID : Int
  SeqNum : Int
  Size : Int
  Checksum : Nat
  Payload : List Nat
deriving DecidableEq, Repr

/-- Embeds Go `Params` (params.go lines 88-107). -/
structure Params where
  EpochLimit : Nat
  EpochMillis : Nat
  WindowSize : Nat
  MaxBackOffInterval : Nat
  MaxUnackedMessages : Nat
deriving DecidableEq, Repr

/-! ## Claim C2: inbound Data integrity policy

The engine that applies the integrity policy lives in the (absent)
client/server implementation; the definition below is modelled from the
spec. -/

/-- Modelled from the spec: the normalization a receiver applies to an inbound
Data message before delivery (spec section 4.1 "Integrity policy" and
invariant I4; the client/server engine performing this check is not among the
sources).  If the received payload is shorter than the declared `Size` the
message is dropped; otherwise the payload is truncated to `Size`, the checksum
is recomputed over the truncated payload, and the message is dropped on
mismatch, else the truncated payload is delivered. -/
def processData (m : Message) : Option (List Nat) :=
  if (m.Payload.length : Int) < m.Size then none
  else
    let truncated := m.Payload.take m.Size.toNat
    if CalculateChecksum m.ConnID m.SeqNum m.Size truncated = m.Checksum then
      some truncated
    else none

/-- Claim C2: an inbound Data message whose payload is shorter than its `Size`
field is dropped; one whose payload is at least `Size` long is truncated to
`Size` before checksum verification, and is delivered exactly when the
checksum recomputed over the truncated payload matches, dropped otherwise. -/
theorem processData_integrity (m : Message) :
    ((m.Payload.length : Int) < m.Size → processData m = none) ∧
      (m.Size ≤ (m.Payload.length : Int) →
        (CalculateChecksum m.ConnID m.SeqNum m.Size (m.Payload.take m.Size.toNat) =
            m.Checksum → processData m = some (m.Payload.take m.Size.toNat)) ∧
        (CalculateChecksum m.ConnID m.SeqNum m.Size (m.Payload.take m.Size.toNat) ≠
            m.Checksum → processData m = none)) := by
  constructor
  · intro h
    simp [processData, h]
  · intro h
    have hnot : ¬(m.Payload.length : Int) < m.Size := by omega
    constructor
    · intro hck
      simp [processData, hnot, hck]
    · intro hck
      simp [processData, hnot, hck]

/-- Concrete instances of claim C2: a Data message declaring `Size = 1` with
an empty payload is dropped; one with payload `[7, 9]`, `Size = 1` and the
checksum of the truncated payload `[7]` is delivered as `[7]`. -/
theorem processData_integrity_witness :
    processData ⟨MsgType.MsgData, 1, 1, 1, 0, []⟩ = none ∧
      processData ⟨MsgType.MsgData, 1, 1, 1, 65525, [7, 9]⟩ = some [7] := by
  constructor
  · exact (processData_integrity ⟨MsgType.MsgData, 1, 1, 1, 0, []⟩).1 (by decide)
  · refine (((processData_integrity ⟨MsgType.MsgData, 1, 1, 1, 65525, [7, 9]⟩).2
      (by decide)).1 ?_)
    have h : CalculateChecksum 1 1 1 ([7, 9].take (1 : Int).toNat) =
        65535 - foldHalves 10 := rfl
    rw [h, foldHalves_of_le (by norm_num)]

/-! ## Claim C4: in-order, gap-free delivery (reordering buffer)

The receive path of the engine is not among the sources; the definitions
below are modelled from the spec (section 4.2 "Inbound data path" and data
model: `next_recv_seq`, `recv_buffer`, `inbound_delivery`). -/

/-- Modelled from the spec: the per-connection receive state: `nextRecvSeq`
(next in-order sequence expected, starts at `ISN_remote + 1`), `recvBuffer`
(mapping sequence number to payload for out-of-order arrivals), and
`delivered` (the in-order payloads handed to the application, in order). -/
structure RecvState where
  nextRecvSeq : Nat
  recvBuffer : List (Nat × List Nat)
  delivered : List (List Nat)
deriving DecidableEq, Repr

/-- Lookup of a sequence number in the reorder buffer. -/
def findSeq (buf : List (Nat × List Nat)) (q : Nat) : Option (List Nat) :=
  match buf with
  | [] => none
  | e :: rest => if e.1 = q then some e.2 else findSeq rest q

lemma findSeq_filter_length (buf : List (Nat × List Nat)) (q : Nat) (p : List Nat) :
    findSeq buf q = some p →
      (buf.filter (fun e => e.1 ≠ q)).length < buf.length := by
  induction buf with
  | nil => intro h; simp [findSeq] at h
  | cons e rest ih =>
    intro h
    rw [List.filter_cons]
    by_cases he : e.1 = q
    · rw [if_neg (by simp [he])]
      have hle := List.length_filter_le (fun x => decide (x.1 ≠ q)) rest
      simp only [List.length_cons]
      omega
    · rw [if_pos (by simp [he])]
      simp only [findSeq, if_neg he] at h
      have := ih h
      simp only [List.length_cons]
      omega

lemma findSeq_mem (buf : List (Nat × List Nat)) (q : Nat) (p : List Nat) :
    findSeq buf q = some p → (q, p) ∈ buf := by
  induction buf with
  | nil => intro h; simp [findSeq] at h
  | cons e rest ih =>
    intro h
    simp only [findSeq] at h
    by_cases he : e.1 = q
    · rw [if_pos he] at h
      cases e with
      | mk a b =>
        simp only at he h
        subst he
        obtain rfl : b = p := Option.some_inj.mp h
        exact List.mem_cons_self _ _
    · rw [if_neg he] at h
      exact List.mem_cons_of_mem _ (ih h)

/-- Modelled from the spec: step 4 of the inbound data path: while the
reorder buffer contains `next_recv_seq`, move that payload to the in-order
delivery queue and advance `next_recv_seq` (removing the buffer entry). -/
def drainLoop (s : RecvState) : RecvState :=
  match h : findSeq s.recvBuffer s.nextRecvSeq with
  | some p => drainLoop ⟨s.nextRecvSeq + 1,
      s.recvBuffer.filter (fun q => q.1 ≠ s.nextRecvSeq), s.delivered ++ [p]⟩
  | none => s
termination_by s.recvBuffer.length
decreasing_by exact findSeq_filter_length _ _ _ h

/-- Modelled from the spec: steps 2-4 of the inbound data path for a Data
message carrying sequence `seq`: sequences below `next_recv_seq` are
duplicates and ignored; otherwise the payload is inserted into the reorder
buffer (overwriting any previous entry at that sequence) and the buffer is
drained in order.  (Step 1, sending `Ack(seq)`, does not affect this state.) -/
def recvData (s : RecvState) (seq : Nat) (p : List Nat) : RecvState :=
  if seq < s.nextRecvSeq then s
  else drainLoop ⟨s.nextRecvSeq,
    (seq, p) :: s.recvBuffer.filter (fun q => q.1 ≠ seq), s.delivered⟩

/-- Modelled from the spec: fresh receive state for a connection whose remote
initial sequence number is `isn` (`next_recv_seq = ISN_remote + 1`). -/
def initRecv (isn : Nat) : RecvState := ⟨isn + 1, [], []⟩

/-- Fold a list of (possibly reordered, possibly duplicated) Data arrivals
through the receive path. -/
def runRecv (isn : Nat) (arrivals : List (Nat × List Nat)) : RecvState :=
  arrivals.foldl (fun s a => recvData s a.1 a.2) (initRecv isn)

/-- The receive-path invariant tying a state to the peer's write sequence
`w`: everything delivered so far is exactly the prefix of `w` below
`nextRecvSeq`, and every buffered entry is a genuine pending message. -/
def RecvInv (isn : Nat) (w : List (List Nat)) (s : RecvState) : Prop :=
  isn + 1 ≤ s.nextRecvSeq ∧
    s.nextRecvSeq ≤ isn + 1 + w.length ∧
    s.delivered = w.take (s.nextRecvSeq - (isn + 1)) ∧
    ∀ q ∈ s.recvBuffer, isn + 1 ≤ q.1 ∧ q.1 < isn + 1 + w.length ∧
      q.2 = w.getD (q.1 - (isn + 1)) []

lemma drainLoop_some (s : RecvState) (p : List Nat)
    (h : findSeq s.recvBuffer s.nextRecvSeq = some p) :
    drainLoop s = drainLoop ⟨s.nextRecvSeq + 1,
      s.recvBuffer.filter (fun q => q.1 ≠ s.nextRecvSeq), s.delivered ++ [p]⟩ := by
  conv_lhs => rw [drainLoop]
  split
  next p' heq =>
    rw [h] at heq
    obtain rfl : p' = p := (Option.some_inj.mp heq).symm
    rfl
  next heq =>
    rw [h] at heq
    cases heq

lemma drainLoop_none (s : RecvState)
    (h : findSeq s.recvBuffer s.nextRecvSeq = none) : drainLoop s = s := by
  conv_lhs => rw [drainLoop]
  split
  next p' heq =>
    rw [h] at heq
    cases heq
  next heq => rfl

lemma drainLoop_inv (isn : Nat) (w : List (List Nat)) (s : RecvState) :
    RecvInv isn w s → RecvInv isn w (drainLoop s) := by
  induction s using drainLoop.induct with
  | case1 s p hfind ih =>
    intro hinv
    obtain ⟨h1, h2, h3, h4⟩ := hinv
    rw [drainLoop_some s p hfind]
    apply ih
    have hmem := findSeq_mem _ _ _ hfind
    obtain ⟨hq1', hq2', hq3'⟩ := h4 _ hmem
    have hq1 : isn + 1 ≤ s.nextRecvSeq := hq1'
    have hq2 : s.nextRecvSeq < isn + 1 + w.length := hq2'
    have hq3 : p = w.getD (s.nextRecvSeq - (isn + 1)) [] := hq3'
    simp only [RecvInv]
    refine ⟨by omega, by omega, ?_, ?_⟩
    · have hk : s.nextRecvSeq - (isn + 1) < w.length := by omega
      have htake : w.take (s.nextRecvSeq + 1 - (isn + 1)) =
          w.take (s.nextRecvSeq - (isn + 1)) ++ [w.getD (s.nextRecvSeq - (isn + 1)) []] := by
        rw [List.getD_eq_getElem w [] hk]
        rw [show s.nextRecvSeq + 1 - (isn + 1) = (s.nextRecvSeq - (isn + 1)) + 1 by omega]
        rw [List.take_succ]
        congr 1
        rw [List.getElem?_eq_getElem hk]
        rfl
      simp only [htake, ← h3, hq3]
    · intro q hq
      exact h4 q (List.mem_of_mem_filter hq)
  | case2 s hfind =>
    intro hinv
    rw [drainLoop_none s hfind]
    exact hinv

lemma recvData_inv (isn : Nat) (w : List (List Nat)) (s : RecvState)
    (seq : Nat) (p : List Nat)
    (hseq : isn + 1 ≤ seq ∧ seq < isn + 1 + w.length ∧ p = w.getD (seq - (isn + 1)) []) :
    RecvInv isn w s → RecvInv isn w (recvData s seq p) := by
  intro hinv
  obtain ⟨h1, h2, h3, h4⟩ := hinv
  unfold recvData
  split
  · exact ⟨h1, h2, h3, h4⟩
  · apply drainLoop_inv
    refine ⟨h1, h2, h3, ?_⟩
    intro q hq
    simp only [List.mem_cons] at hq
    rcases hq with rfl | hq
    · exact hseq
    · exact h4 q (List.mem_of_mem_filter hq)

lemma foldl_recv_inv (isn : Nat) (w : List (List Nat)) :
    ∀ (arrivals : List (Nat × List Nat)) (s : RecvState), RecvInv isn w s →
      (∀ a ∈ arrivals, isn + 1 ≤ a.1 ∧ a.1 < isn + 1 + w.length ∧
        a.2 = w.getD (a.1 - (isn + 1)) []) →
      RecvInv isn w (arrivals.foldl (fun s a => recvData s a.1 a.2) s) := by
  intro arrivals
  induction arrivals with
  | nil => intro s hs _; simpa using hs
  | cons a rest ih =>
    intro s hs harr
    simp only [List.foldl_cons]
    exact ih _ (recvData_inv isn w s a.1 a.2 (harr a (by simp)) hs)
      (fun x hx => harr x (by simp [hx]))

/-- Claim C4: after any sequence of arrivals drawn from the peer's write
sequence `w` (arriving in any order, possibly with duplicates), the payloads
delivered to the application are exactly the prefix of `w` below the current
`nextRecvSeq`: delivery is in order and gap-free from `ISN_remote + 1`, and
out-of-order arrivals are released only once all lower sequences arrived. -/
theorem recv_delivers_write_sequence (isn : Nat) (w : List (List Nat))
    (arrivals : List (Nat × List Nat))
    (harr : ∀ a ∈ arrivals, isn + 1 ≤ a.1 ∧ a.1 < isn + 1 + w.length ∧
      a.2 = w.getD (a.1 - (isn + 1)) []) :
    (runRecv isn arrivals).delivered =
        w.take ((runRecv isn arrivals).nextRecvSeq - (isn + 1)) ∧
      (runRecv isn arrivals).nextRecvSeq - (isn + 1) ≤ w.length := by
  have hinit : RecvInv isn w (initRecv isn) := by
    refine ⟨le_refl _, by simp [initRecv], by simp [initRecv], ?_⟩
    intro q hq
    simp [initRecv] at hq
  have hinv : RecvInv isn w (runRecv isn arrivals) :=
    foldl_recv_inv isn w arrivals (initRecv isn) hinit harr
  exact ⟨hinv.2.2.1, by have := hinv.2.1; omega⟩

/-- Concrete instance of claim C4: with writes `[[1], [2]]` arriving in
reverse order, delivery is still the in-order prefix. -/
theorem recv_delivers_write_sequence_witness :
    (runRecv 0 [(2, [2]), (1, [1])]).delivered =
        [[1], [2]].take ((runRecv 0 [(2, [2]), (1, [1])]).nextRecvSeq - 1) ∧
      (runRecv 0 [(2, [2]), (1, [1])]).nextRecvSeq - 1 ≤ 2 :=
  recv_delivers_write_sequence 0 [[1], [2]] [(2, [2]), (1, [1])] (by decide)

/-! ## Sender model (claims C3, C5, C6, C7)

The send path of the engine is not among the sources; the definitions below
are modelled from the spec (section 4.2: outbound send path, window
advancement, acknowledgment handling, retransmission and back-off). -/

/-- Modelled from the spec: an entry of the sliding window (data model:
"window: ordered mapping from sequence number → {payload, send-count,
epochs-until-retry, current-back-off}"). -/
structure WindowEntry where
  seq : Nat
  payload : List Nat
  sendCount : Nat
  epochsUntilRetry : Nat
  currentBackOff : Nat
deriving DecidableEq, Repr

/-- Modelled from the spec (section 4.2 step 2): a freshly transmitted entry
has send-count 1, epochs-until-retry 1, current-back-off 1. -/
def freshEntry (seq : Nat) (p : List Nat) : WindowEntry := ⟨seq, p, 1, 1, 1⟩

/-- Modelled from the spec: the sender half of the per-connection state
(`next_send_seq`, `oldest_unacked`, `pending_send`, `window`). -/
structure SendState where
  nextSendSeq : Nat
  oldestUnacked : Nat
  pendingSend : List (List Nat)
  window : List WindowEntry
deriving DecidableEq, Repr

/-- The effective in-flight cap `min(WindowSize, MaxUnackedMessages)`
(spec section 6). -/
def flightCap (P : Params) : Nat := min P.WindowSize P.MaxUnackedMessages

/-- Modelled from the spec (section 4.2 step 2): a new sequence is transmitted
immediately when the window has fewer than `min(WindowSize,
MaxUnackedMessages)` entries and the sequence lies within
`[oldest_unacked, oldest_unacked + WindowSize)`. -/
def canSend (P : Params) (s : SendState) : Prop :=
  s.window.length < flightCap P ∧ s.nextSendSeq < s.oldestUnacked + P.WindowSize

instance canSendDec (P : Params) (s : SendState) : Decidable (canSend P s) := by
  unfold canSend
  infer_instance

/-- Modelled from the spec (section 4.2 outbound send path, steps 1-3): a
submitted payload is transmitted immediately and inserted into the window
when permitted, else queued on `pending_send` (which holds "payloads not yet
assigned a sequence number"; a sequence number is assigned when the payload
is transmitted).  Returns the new state and the sequence numbers of the Data
messages put on the wire. -/
def writeOp (P : Params) (s : SendState) (p : List Nat) : SendState × List Nat :=
  if canSend P s then
    ({ s with
        nextSendSeq := s.nextSendSeq + 1
        window := s.window ++ [freshEntry s.nextSendSeq p] }, [s.nextSendSeq])
  else
    ({ s with pendingSend := s.pendingSend ++ [p] }, [])

/-- Modelled from the spec ("Window advancement"): pull payloads from
`pending_send` in order, assigning sequence numbers and transmitting, as long
as the window permits; the list argument is the pending queue being
consumed. -/
def advanceAux (P : Params) (d : SendState) : List (List Nat) → SendState × List Nat
  | [] => ({ d with pendingSend := [] }, [])
  | p :: rest =>
    if canSend P d then
      let res := advanceAux P { d with
        nextSendSeq := d.nextSendSeq + 1
        window := d.window ++ [freshEntry d.nextSendSeq p] } rest
      (res.1, d.nextSendSeq :: res.2)
    else ({ d with pendingSend := p :: rest }, [])

/-- Window advancement applied to a state's own pending queue. -/
def advance (P : Params) (s : SendState) : SendState × List Nat :=
  advanceAux P s s.pendingSend

/-- The lowest sequence number in a window, with a default for the empty
window. -/
def windowMinSeq (w : List WindowEntry) (dflt : Nat) : Nat :=
  w.foldr (fun e m => min e.seq m) dflt

/-- Modelled from the spec ("Acknowledgment handling"): `Ack(0)` is a
heartbeat with no window effect; `Ack(n)` removes entry `n` from the window
if present, recomputes `oldest_unacked` as the lowest remaining windowed
sequence (or `next_send_seq` when the window empties), and advances the
window from `pending_send`. -/
def ackOp (P : Params) (s : SendState) (n : Nat) : SendState × List Nat :=
  if n = 0 then (s, [])
  else
    advance P { s with
      window := s.window.filter (fun e => e.seq ≠ n)
      oldestUnacked := windowMinSeq (s.window.filter (fun e => e.seq ≠ n)) s.nextSendSeq }

/-- Modelled from the spec ("Acknowledgment handling"): `CAck(n)` removes
every window entry with sequence at most `n`, sets `oldest_unacked` to the
lowest remaining sequence (or `n + 1` if the window empties), and advances
the window from `pending_send`. -/
def cackOp (P : Params) (s : SendState) (n : Nat) : SendState × List Nat :=
  advance P { s with
    window := s.window.filter (fun e => n < e.seq)
    oldestUnacked :=
      if (s.window.filter (fun e => n < e.seq)).isEmpty then n + 1
      else windowMinSeq (s.window.filter (fun e => n < e.seq)) (n + 1) }

/-- Modelled from the spec ("Retransmission and back-off"): on an epoch tick
an entry's `epochs-until-retry` is decremented; when it reaches 0 the message
is retransmitted, `current-back-off` doubles capped at
`MaxBackOffInterval + 1`, and `epochs-until-retry` is reset to the new
back-off.  Returns the updated entry and whether it was retransmitted. -/
def entryTick (M : Nat) (e : WindowEntry) : WindowEntry × Bool :=
  if e.epochsUntilRetry - 1 = 0 then
    (⟨e.seq, e.payload, e.sendCount + 1, min (2 * e.currentBackOff) (M + 1),
      min (2 * e.currentBackOff) (M + 1)⟩, true)
  else
    (⟨e.seq, e.payload, e.sendCount, e.epochsUntilRetry - 1, e.currentBackOff⟩, false)

/-- Modelled from the spec ("Epoch liveness" / "Retransmission and
back-off"): an epoch tick updates every window entry independently and
retransmits those whose timer expired. -/
def tickOp (P : Params) (s : SendState) : SendState × List Nat :=
  ({ s with window := s.window.map (fun e => (entryTick P.MaxBackOffInterval e).1) },
    ((s.window.filter (fun e => (entryTick P.MaxBackOffInterval e).2)).map
      (fun e => e.seq)))

/-- Events driving the sender state machine. -/
inductive Ev where
  | write (p : List Nat)
  | ack (n : Nat)
  | cack (n : Nat)
  | tick
deriving DecidableEq, Repr

/-- One sender step; returns the new state and the sequence numbers of the
Data messages transmitted by the step. -/
def stepEv (P : Params) (s : SendState) : Ev → SendState × List Nat
  | Ev.write p => writeOp P s p
  | Ev.ack n => ackOp P s n
  | Ev.cack n => cackOp P s n
  | Ev.tick => tickOp P s

/-- Run a sequence of events, accumulating all transmitted sequence
numbers. -/
def runEvs (P : Params) (s : SendState) : List Ev → SendState × List Nat
  | [] => (s, [])
  | e :: rest =>
    ((runEvs P (stepEv P s e).1 rest).1,
      (stepEv P s e).2 ++ (runEvs P (stepEv P s e).1 rest).2)

/-- Modelled from the spec: fresh sender state for local initial sequence
number `isn` (`next_send_seq` starts at `ISN_local + 1`). -/
def initSend (isn : Nat) : SendState := ⟨isn + 1, isn + 1, [], []⟩

/-! ### Claim C3: the in-flight cap -/

lemma advanceAux_cap (P : Params) :
    ∀ (pending : List (List Nat)) (d : SendState),
      d.window.length ≤ flightCap P →
      (advanceAux P d pending).1.window.length ≤ flightCap P := by
  intro pending
  induction pending with
  | nil => intro d hd; simpa [advanceAux] using hd
  | cons p rest ih =>
    intro d hd
    simp only [advanceAux]
    split
    · next hcs =>
      apply ih
      simp only [List.length_append, List.length_singleton]
      have := hcs.1
      unfold flightCap at *
      omega
    · simpa using hd

lemma stepEv_cap (P : Params) (s : SendState) (e : Ev)
    (h : s.window.length ≤ flightCap P) :
    (stepEv P s e).1.window.length ≤ flightCap P := by
  cases e with
  | write p =>
    simp only [stepEv, writeOp]
    split
    · next hcs =>
      simp only [List.length_append, List.length_singleton]
      have := hcs.1
      omega
    · simpa using h
  | ack n =>
    simp only [stepEv, ackOp]
    split
    · exact h
    · apply advanceAux_cap
      simp only
      calc (s.window.filter (fun e => e.seq ≠ n)).length
          ≤ s.window.length := List.length_filter_le _ _
        _ ≤ flightCap P := h
  | cack n =>
    simp only [stepEv, cackOp]
    apply advanceAux_cap
    simp only
    calc (s.window.filter (fun e => n < e.seq)).length
        ≤ s.window.length := List.length_filter_le _ _
      _ ≤ flightCap P := h
  | tick =>
    simpa [stepEv, tickOp] using h

lemma runEvs_cap (P : Params) :
    ∀ (es : List Ev) (s : SendState), s.window.length ≤ flightCap P →
      (runEvs P s es).1.window.length ≤ flightCap P := by
  intro es
  induction es with
  | nil => intro s h; simpa [runEvs] using h
  | cons e rest ih =>
    intro s h
    simp only [runEvs]
    exact ih _ (stepEv_cap P s e h)

/-- Claim C3: from the initial state, after any sequence of events the
in-flight window never holds more than `min(WindowSize, MaxUnackedMessages)`
entries, and a write submitted when the cap is reached is queued on
`pending_send` without transmitting anything. -/
theorem window_cap_invariant (P : Params) (isn : Nat) (es : List Ev) :
    (runEvs P (initSend isn) es).1.window.length ≤
        min P.WindowSize P.MaxUnackedMessages ∧
      ∀ p, min P.WindowSize P.MaxUnackedMessages ≤
          (runEvs P (initSend isn) es).1.window.length →
        stepEv P (runEvs P (initSend isn) es).1 (Ev.write p) =
          ({ (runEvs P (initSend isn) es).1 with
              pendingSend := (runEvs P (initSend isn) es).1.pendingSend ++ [p] }, []) := by
  have hcap : (runEvs P (initSend isn) es).1.window.length ≤ flightCap P := by
    apply runEvs_cap
    simp [initSend, flightCap]
  refine ⟨hcap, fun p hfull => ?_⟩
  have hnot : ¬canSend P (runEvs P (initSend isn) es).1 := by
    intro hcs
    have := hcs.1
    unfold flightCap at this
    omega
  simp only [stepEv, writeOp, if_neg hnot]

/-- Concrete instance of claim C3: with `WindowSize = MaxUnackedMessages = 1`
a second write is queued, not transmitted. -/
theorem window_cap_invariant_witness :
    stepEv ⟨5, 2000, 1, 0, 1⟩ (runEvs ⟨5, 2000, 1, 0, 1⟩ (initSend 0) [Ev.write [1]]).1
        (Ev.write [2]) =
      ({ (runEvs ⟨5, 2000, 1, 0, 1⟩ (initSend 0) [Ev.write [1]]).1 with
          pendingSend := (runEvs ⟨5, 2000, 1, 0, 1⟩ (initSend 0)
            [Ev.write [1]]).1.pendingSend ++ [[2]] }, []) :=
  (window_cap_invariant ⟨5, 2000, 1, 0, 1⟩ 0 [Ev.write [1]]).2 [2] (by decide)

/-! ### Claim C5: acknowledgment semantics -/

lemma entryTick_seq (M : Nat) (e : WindowEntry) : (entryTick M e).1.seq = e.seq := by
  unfold entryTick
  split <;> rfl

/-- Window advancement only appends fresh entries whose sequence numbers are
at least the pre-advancement `next_send_seq` (and below the resulting one);
everything it transmits also carries such a sequence. -/
lemma advanceAux_props (P : Params) :
    ∀ (pending : List (List Nat)) (ns ou : Nat) (pd : List (List Nat))
      (w : List WindowEntry),
      ns ≤ (advanceAux P ⟨ns, ou, pd, w⟩ pending).1.nextSendSeq ∧
      (∃ tail, (advanceAux P ⟨ns, ou, pd, w⟩ pending).1.window = w ++ tail ∧
        ∀ e ∈ tail, ns ≤ e.seq ∧
          e.seq < (advanceAux P ⟨ns, ou, pd, w⟩ pending).1.nextSendSeq) ∧
      (∀ q ∈ (advanceAux P ⟨ns, ou, pd, w⟩ pending).2, ns ≤ q) := by
  intro pending
  induction pending with
  | nil =>
    intro ns ou pd w
    refine ⟨le_refl _, ⟨[], by simp [advanceAux], ?_⟩, ?_⟩
    · intro e he; simp at he
    · intro q hq; simp [advanceAux] at hq
  | cons p rest ih =>
    intro ns ou pd w
    simp only [advanceAux]
    split
    · next hcs =>
      dsimp only
      obtain ⟨ih1, ⟨tail, ihw, ihtail⟩, ih3⟩ :=
        ih (ns + 1) ou pd (w ++ [freshEntry ns p])
      refine ⟨by simpa using Nat.le_of_succ_le ih1,
        ⟨freshEntry ns p :: tail, ?_, ?_⟩, ?_⟩
      · simpa using ihw
      · intro e he
        simp only [List.mem_cons] at he
        rcases he with rfl | he
        · have h1 : ns + 1 ≤ (advanceAux P ⟨ns + 1, ou, pd,
              w ++ [freshEntry ns p]⟩ rest).1.nextSendSeq := ih1
          simp only [freshEntry]
          constructor
          · exact le_refl _
          · simpa using Nat.lt_of_lt_of_le (Nat.lt_succ_self ns) h1
        · have := ihtail e he
          omega
      · intro q hq
        simp only [List.mem_cons] at hq
        rcases hq with rfl | hq
        · simp
        · have := ih3 q hq
          omega
    · refine ⟨le_refl _, ⟨[], by simp, ?_⟩, ?_⟩
      · intro e he; simp at he
      · intro q hq; simp at hq

/-- All windowed sequence numbers lie below `next_send_seq`. -/
def SeqBound (s : SendState) : Prop := ∀ e ∈ s.window, e.seq < s.nextSendSeq

lemma stepEv_seqBound (P : Params) (s : SendState) (ev : Ev) :
    SeqBound s → SeqBound (stepEv P s ev).1 := by
  intro h
  cases ev with
  | write p =>
    simp only [stepEv, writeOp]
    split
    · intro e he
      simp only [List.mem_append, List.mem_singleton] at he
      rcases he with he | rfl
      · have := h e he
        simp only
        omega
      · simp [freshEntry]
    · intro e he
      exact h e he
  | ack n =>
    simp only [stepEv, ackOp]
    split
    · exact h
    · intro e he
      obtain ⟨_, ⟨tail, hw, htail⟩, _⟩ := advanceAux_props P s.pendingSend
        s.nextSendSeq (windowMinSeq (s.window.filter (fun e => e.seq ≠ n)) s.nextSendSeq)
        s.pendingSend (s.window.filter (fun e => e.seq ≠ n))
      rw [show (advance P { s with
          window := s.window.filter (fun e => e.seq ≠ n)
          oldestUnacked :=
            windowMinSeq (s.window.filter (fun e => e.seq ≠ n)) s.nextSendSeq }) =
          advanceAux P ⟨s.nextSendSeq,
            windowMinSeq (s.window.filter (fun e => e.seq ≠ n)) s.nextSendSeq,
            s.pendingSend, s.window.filter (fun e => e.seq ≠ n)⟩ s.pendingSend from rfl]
        at he ⊢
      rw [hw] at he
      simp only [List.mem_append] at he
      rcases he with he | he
      · have hmem := List.mem_of_mem_filter he
        have h1 := h e hmem
        obtain ⟨hmono, _, _⟩ := advanceAux_props P s.pendingSend
          s.nextSendSeq (windowMinSeq (s.window.filter (fun e => e.seq ≠ n)) s.nextSendSeq)
          s.pendingSend (s.window.filter (fun e => e.seq ≠ n))
        omega
      · exact (htail e he).2
  | cack n =>
    simp only [stepEv, cackOp]
    intro e he
    obtain ⟨hmono, ⟨tail, hw, htail⟩, _⟩ := advanceAux_props P s.pendingSend
      s.nextSendSeq
      (if (s.window.filter (fun e => n < e.seq)).isEmpty then n + 1
        else windowMinSeq (s.window.filter (fun e => n < e.seq)) (n + 1))
      s.pendingSend (s.window.filter (fun e => n < e.seq))
    rw [show (advance P { s with
        window := s.window.filter (fun e => n < e.seq)
        oldestUnacked :=
          if (s.window.filter (fun e => n < e.seq)).isEmpty then n + 1
          else windowMinSeq (s.window.filter (fun e => n < e.seq)) (n + 1) }) =
        advanceAux P ⟨s.nextSendSeq,
          (if (s.window.filter (fun e => n < e.seq)).isEmpty then n + 1
            else windowMinSeq (s.window.filter (fun e => n < e.seq)) (n + 1)),
          s.pendingSend, s.window.filter (fun e => n < e.seq)⟩ s.pendingSend from rfl]
      at he ⊢
    rw [hw] at he
    simp only [List.mem_append] at he
    rcases he with he | he
    · have hmem := List.mem_of_mem_filter he
      have h1 := h e hmem
      omega
    · exact (htail e he).2
  | tick =>
    simp only [stepEv, tickOp]
    intro e he
    simp only [List.mem_map] at he
    obtain ⟨e0, he0, rfl⟩ := he
    have := h e0 he0
    simp only [entryTick_seq]
    exact this

lemma runEvs_seqBound (P : Params) :
    ∀ (es : List Ev) (s : SendState), SeqBound s → SeqBound (runEvs P s es).1 := by
  intro es
  induction es with
  | nil => intro s h; exact h
  | cons e rest ih =>
    intro s h
    simp only [runEvs]
    exact ih _ (stepEv_seqBound P s e h)

/-- "Everything this sender still holds or will ever transmit stays above
`n`": all window entries and `next_send_seq` exceed `n`. -/
def AllAbove (n : Nat) (s : SendState) : Prop :=
  (∀ e ∈ s.window, n < e.seq) ∧ n < s.nextSendSeq

lemma advanceAux_allAbove (P : Params) (ns ou : Nat) (pd pd' : List (List Nat))
    (w : List WindowEntry) (n : Nat)
    (hw : ∀ e ∈ w, n < e.seq) (hns : n < ns) :
    (∀ e ∈ (advanceAux P ⟨ns, ou, pd, w⟩ pd').1.window, n < e.seq) ∧
      n < (advanceAux P ⟨ns, ou, pd, w⟩ pd').1.nextSendSeq ∧
      (∀ q ∈ (advanceAux P ⟨ns, ou, pd, w⟩ pd').2, n < q) := by
  obtain ⟨hmono, ⟨tail, hwin, htail⟩, hout⟩ := advanceAux_props P pd' ns ou pd w
  refine ⟨?_, by omega, ?_⟩
  · intro e he
    rw [hwin] at he
    simp only [List.mem_append] at he
    rcases he with he | he
    · exact hw e he
    · have := (htail e he).1
      omega
  · intro q hq
    have := hout q hq
    omega

lemma stepEv_allAbove (P : Params) (s : SendState) (ev : Ev) (n : Nat) :
    AllAbove n s → AllAbove n (stepEv P s ev).1 ∧ ∀ q ∈ (stepEv P s ev).2, n < q := by
  intro h
  obtain ⟨hwin, hns⟩ := h
  cases ev with
  | write p =>
    simp only [stepEv, writeOp]
    split
    · refine ⟨⟨?_, by simpa using Nat.lt_succ_of_lt hns⟩, ?_⟩
      · intro e he
        simp only [List.mem_append, List.mem_singleton] at he
        rcases he with he | rfl
        · exact hwin e he
        · simpa [freshEntry] using hns
      · intro q hq
        simp only [List.mem_singleton] at hq
        subst hq
        simpa using hns
    · exact ⟨⟨hwin, hns⟩, by intro q hq; simp at hq⟩
  | ack m =>
    simp only [stepEv, ackOp]
    split
    · exact ⟨⟨hwin, hns⟩, by intro q hq; simp at hq⟩
    · rw [show (advance P { s with
          window := s.window.filter (fun e => e.seq ≠ m)
          oldestUnacked :=
            windowMinSeq (s.window.filter (fun e => e.seq ≠ m)) s.nextSendSeq }) =
          advanceAux P ⟨s.nextSendSeq,
            windowMinSeq (s.window.filter (fun e => e.seq ≠ m)) s.nextSendSeq,
            s.pendingSend, s.window.filter (fun e => e.seq ≠ m)⟩ s.pendingSend from rfl]
      obtain ⟨h1, h2, h3⟩ := advanceAux_allAbove P s.nextSendSeq
        (windowMinSeq (s.window.filter (fun e => e.seq ≠ m)) s.nextSendSeq)
        s.pendingSend s.pendingSend (s.window.filter (fun e => e.seq ≠ m)) n
        (fun e he => hwin e (List.mem_of_mem_filter he)) hns
      exact ⟨⟨h1, h2⟩, h3⟩
  | cack m =>
    simp only [stepEv, cackOp]
    rw [show (advance P { s with
        window := s.window.filter (fun e => m < e.seq)
        oldestUnacked :=
          if (s.window.filter (fun e => m < e.seq)).isEmpty then m + 1
          else windowMinSeq (s.window.filter (fun e => m < e.seq)) (m + 1) }) =
        advanceAux P ⟨s.nextSendSeq,
          (if (s.window.filter (fun e => m < e.seq)).isEmpty then m + 1
            else windowMinSeq (s.window.filter (fun e => m < e.seq)) (m + 1)),
          s.pendingSend, s.window.filter (fun e => m < e.seq)⟩ s.pendingSend from rfl]
    obtain ⟨h1, h2, h3⟩ := advanceAux_allAbove P s.nextSendSeq
      (if (s.window.filter (fun e => m < e.seq)).isEmpty then m + 1
        else windowMinSeq (s.window.filter (fun e => m < e.seq)) (m + 1))
      s.pendingSend s.pendingSend (s.window.filter (fun e => m < e.seq)) n
      (fun e he => hwin e (List.mem_of_mem_filter he)) hns
    exact ⟨⟨h1, h2⟩, h3⟩
  | tick =>
    simp only [stepEv, tickOp]
    refine ⟨⟨?_, hns⟩, ?_⟩
    · intro e he
      simp only [List.mem_map] at he
      obtain ⟨e0, he0, rfl⟩ := he
      simpa [entryTick_seq] using hwin e0 he0
    · intro q hq
      simp only [List.mem_map] at hq
      obtain ⟨e0, he0, rfl⟩ := hq
      exact hwin e0 (List.mem_of_mem_filter he0)

lemma runEvs_allAbove (P : Params) :
    ∀ (es : List Ev) (s : SendState) (n : Nat), AllAbove n s →
      AllAbove n (runEvs P s es).1 ∧ ∀ q ∈ (runEvs P s es).2, n < q := by
  intro es
  induction es with
  | nil =>
    intro s n h
    exact ⟨h, by intro q hq; simp [runEvs] at hq⟩
  | cons e rest ih =>
    intro s n h
    obtain ⟨h1, h2⟩ := stepEv_allAbove P s e n h
    obtain ⟨ih1, ih2⟩ := ih (stepEv P s e).1 n h1
    refine ⟨ih1, ?_⟩
    intro q hq
    simp only [runEvs, List.mem_append] at hq
    rcases hq with hq | hq
    · exact h2 q hq
    · exact ih2 q hq

/-- A cumulative ack of `n` (for `n` below `next_send_seq`) leaves the
sender in a state where everything windowed or transmitted is above `n`. -/
lemma cackOp_establishes (P : Params) (s : SendState) (n : Nat)
    (hns : n < s.nextSendSeq) :
    AllAbove n (cackOp P s n).1 ∧ ∀ q ∈ (cackOp P s n).2, n < q := by
  simp only [cackOp]
  rw [show (advance P { s with
      window := s.window.filter (fun e => n < e.seq)
      oldestUnacked :=
        if (s.window.filter (fun e => n < e.seq)).isEmpty then n + 1
        else windowMinSeq (s.window.filter (fun e => n < e.seq)) (n + 1) }) =
      advanceAux P ⟨s.nextSendSeq,
        (if (s.window.filter (fun e => n < e.seq)).isEmpty then n + 1
          else windowMinSeq (s.window.filter (fun e => n < e.seq)) (n + 1)),
        s.pendingSend, s.window.filter (fun e => n < e.seq)⟩ s.pendingSend from rfl]
  obtain ⟨h1, h2, h3⟩ := advanceAux_allAbove P s.nextSendSeq
    (if (s.window.filter (fun e => n < e.seq)).isEmpty then n + 1
      else windowMinSeq (s.window.filter (fun e => n < e.seq)) (n + 1))
    s.pendingSend s.pendingSend (s.window.filter (fun e => n < e.seq)) n
    (fun e he => by simpa using (List.mem_filter.mp he).2) hns
  exact ⟨⟨h1, h2⟩, h3⟩

lemma cackOp_window_mem (P : Params) (s : SendState) (n : Nat) (hb : SeqBound s) :
    ∀ e ∈ s.window, (e ∈ (cackOp P s n).1.window ↔ n < e.seq) := by
  intro e he
  simp only [cackOp]
  rw [show (advance P { s with
      window := s.window.filter (fun e => n < e.seq)
      oldestUnacked :=
        if (s.window.filter (fun e => n < e.seq)).isEmpty then n + 1
        else windowMinSeq (s.window.filter (fun e => n < e.seq)) (n + 1) }) =
      advanceAux P ⟨s.nextSendSeq,
        (if (s.window.filter (fun e => n < e.seq)).isEmpty then n + 1
          else windowMinSeq (s.window.filter (fun e => n < e.seq)) (n + 1)),
        s.pendingSend, s.window.filter (fun e => n < e.seq)⟩ s.pendingSend from rfl]
  obtain ⟨hmono, ⟨tail, hwin, htail⟩, hout⟩ := advanceAux_props P s.pendingSend
    s.nextSendSeq
    (if (s.window.filter (fun e => n < e.seq)).isEmpty then n + 1
      else windowMinSeq (s.window.filter (fun e => n < e.seq)) (n + 1))
    s.pendingSend (s.window.filter (fun e => n < e.seq))
  rw [hwin]
  constructor
  · intro hmem
    simp only [List.mem_append] at hmem
    rcases hmem with hmem | hmem
    · simpa using (List.mem_filter.mp hmem).2
    · have h1 := (htail e hmem).1
      have h2 := hb e he
      omega
  · intro hgt
    exact List.mem_append_left _ (List.mem_filter.mpr ⟨he, by simpa using hgt⟩)

lemma ackOp_window_mem (P : Params) (s : SendState) (n : Nat) (hn : n ≠ 0)
    (hb : SeqBound s) :
    ∀ e ∈ s.window, (e ∈ (ackOp P s n).1.window ↔ e.seq ≠ n) := by
  intro e he
  simp only [ackOp, if_neg hn]
  rw [show (advance P { s with
      window := s.window.filter (fun e => e.seq ≠ n)
      oldestUnacked :=
        windowMinSeq (s.window.filter (fun e => e.seq ≠ n)) s.nextSendSeq }) =
      advanceAux P ⟨s.nextSendSeq,
        windowMinSeq (s.window.filter (fun e => e.seq ≠ n)) s.nextSendSeq,
        s.pendingSend, s.window.filter (fun e => e.seq ≠ n)⟩ s.pendingSend from rfl]
  obtain ⟨hmono, ⟨tail, hwin, htail⟩, hout⟩ := advanceAux_props P s.pendingSend
    s.nextSendSeq
    (windowMinSeq (s.window.filter (fun e => e.seq ≠ n)) s.nextSendSeq)
    s.pendingSend (s.window.filter (fun e => e.seq ≠ n))
  rw [hwin]
  constructor
  · intro hmem
    simp only [List.mem_append] at hmem
    rcases hmem with hmem | hmem
    · simpa using (List.mem_filter.mp hmem).2
    · have h1 := (htail e hmem).1
      have h2 := hb e he
      omega
  · intro hne
    exact List.mem_append_left _ (List.mem_filter.mpr ⟨he, by simpa using hne⟩)

lemma ackOp_zero (P : Params) (s : SendState) : ackOp P s 0 = (s, []) := by
  simp [ackOp]

/-- Claim C5: from any reachable sender state, a `CAck(n)` removes exactly
the window entries with sequence at most `n` (and nothing with sequence at
most `n` is ever transmitted afterwards, provided `n` acknowledges an
actually assigned sequence); a point `Ack(n)` with `n ≠ 0` removes exactly
the entry with sequence `n`; an `Ack(0)` is a heartbeat with no effect. -/
theorem ack_removal_semantics (P : Params) (isn : Nat) (es : List Ev) (n : Nat) :
    (∀ e ∈ (runEvs P (initSend isn) es).1.window,
        (e ∈ (stepEv P (runEvs P (initSend isn) es).1 (Ev.cack n)).1.window ↔
          n < e.seq)) ∧
      (n ≠ 0 → ∀ e ∈ (runEvs P (initSend isn) es).1.window,
        (e ∈ (stepEv P (runEvs P (initSend isn) es).1 (Ev.ack n)).1.window ↔
          e.seq ≠ n)) ∧
      stepEv P (runEvs P (initSend isn) es).1 (Ev.ack 0) =
        ((runEvs P (initSend isn) es).1, []) ∧
      (n < (runEvs P (initSend isn) es).1.nextSendSeq →
        (∀ q ∈ (stepEv P (runEvs P (initSend isn) es).1 (Ev.cack n)).2, n < q) ∧
        ∀ (es' : List Ev) (q : Nat),
          q ∈ (runEvs P (stepEv P (runEvs P (initSend isn) es).1 (Ev.cack n)).1 es').2 →
          n < q) := by
  have hb : SeqBound (runEvs P (initSend isn) es).1 := by
    apply runEvs_seqBound
    intro e he
    simp [initSend] at he
  refine ⟨cackOp_window_mem P _ n hb, fun hn => ackOp_window_mem P _ n hn hb,
    ackOp_zero P _, ?_⟩
  intro hns
  obtain ⟨hstate, hout⟩ := cackOp_establishes P (runEvs P (initSend isn) es).1 n hns
  refine ⟨hout, ?_⟩
  intro es' q hq
  exact (runEvs_allAbove P es' _ n hstate).2 q hq

/-- Concrete instance of claim C5: after two writes with window room, the
heartbeat `Ack(0)` is a no-op, and every Data transmitted after `CAck(1)`
carries a sequence above 1. -/
theorem ack_removal_semantics_witness :
    stepEv ⟨5, 2000, 2, 0, 2⟩
        (runEvs ⟨5, 2000, 2, 0, 2⟩ (initSend 0) [Ev.write [1], Ev.write [2]]).1
        (Ev.ack 0) =
      ((runEvs ⟨5, 2000, 2, 0, 2⟩ (initSend 0) [Ev.write [1], Ev.write [2]]).1, []) ∧
      ∀ q ∈ (stepEv ⟨5, 2000, 2, 0, 2⟩
        (runEvs ⟨5, 2000, 2, 0, 2⟩ (initSend 0) [Ev.write [1], Ev.write [2]]).1
        (Ev.cack 1)).2, 1 < q :=
  ⟨(ack_removal_semantics ⟨5, 2000, 2, 0, 2⟩ 0 [Ev.write [1], Ev.write [2]] 1).2.2.1,
    ((ack_removal_semantics ⟨5, 2000, 2, 0, 2⟩ 0 [Ev.write [1], Ev.write [2]] 1).2.2.2
      (by decide)).1⟩

/-! ### Claims C6 and C7: the retransmission schedule -/

/-- The state of a window entry after `t` epoch ticks. -/
def entryIter (M : Nat) (e : WindowEntry) : Nat → WindowEntry
  | 0 => e
  | t + 1 => (entryTick M (entryIter M e t)).1

/-- Whether the entry is retransmitted on tick number `t` (ticks are
1-indexed; tick `t` acts on the state after `t - 1` ticks). -/
def firesAt (M : Nat) (e : WindowEntry) (t : Nat) : Bool :=
  (entryTick M (entryIter M e (t - 1))).2

/-- The spec-side retransmission schedule: the `k`-th retransmission of a
fresh entry happens `min(2^k, MaxBackOffInterval + 1)` ticks after the
previous transmission (the claimed doubling sequence 1, 2, 4, ... with each
gap capped at `MaxBackOffInterval + 1`). -/
def fireTimes (M : Nat) : Nat → Nat
  | 0 => 1
  | k + 1 => fireTimes M k + min (2 ^ (k + 1)) (M + 1)

lemma entryIter_add (M : Nat) (e : WindowEntry) (a : Nat) :
    ∀ b, entryIter M e (a + b) = entryIter M (entryIter M e a) b := by
  intro b
  induction b with
  | zero => rfl
  | succ b ih =>
    show (entryTick M (entryIter M e (a + b))).1 =
      (entryTick M (entryIter M (entryIter M e a) b)).1
    rw [ih]

lemma entryIter_countdown (M sq : Nat) (pl : List Nat) (sc c g : Nat) :
    ∀ j, j < g → entryIter M ⟨sq, pl, sc, g, c⟩ j = ⟨sq, pl, sc, g - j, c⟩ := by
  intro j
  induction j with
  | zero => intro _; simp [entryIter]
  | succ j ih =>
    intro hj
    have hih := ih (by omega)
    show (entryTick M (entryIter M ⟨sq, pl, sc, g, c⟩ j)).1 = _
    rw [hih]
    simp only [entryTick]
    rw [if_neg (show ¬((⟨sq, pl, sc, g - j, c⟩ : WindowEntry).epochsUntilRetry - 1 = 0)
      from by show ¬(g - j - 1 = 0); omega)]
    have h1 : g - j - 1 = g - (j + 1) := by omega
    simp [h1]

lemma entryIter_fire (M sq : Nat) (pl : List Nat) (sc c g' : Nat) :
    entryIter M ⟨sq, pl, sc, g' + 1, c⟩ (g' + 1) =
        ⟨sq, pl, sc + 1, min (2 * c) (M + 1), min (2 * c) (M + 1)⟩ ∧
      (entryTick M (entryIter M ⟨sq, pl, sc, g' + 1, c⟩ g')).2 = true := by
  have hcd : entryIter M ⟨sq, pl, sc, g' + 1, c⟩ g' = ⟨sq, pl, sc, 1, c⟩ := by
    have h := entryIter_countdown M sq pl sc c (g' + 1) g' (by omega)
    have : g' + 1 - g' = 1 := by omega
    rwa [this] at h
  constructor
  · show (entryTick M (entryIter M ⟨sq, pl, sc, g' + 1, c⟩ g')).1 = _
    rw [hcd]
    simp [entryTick]
  · rw [hcd]
    simp [entryTick]

lemma entryIter_fireTimes (M sq : Nat) (pl : List Nat) :
    ∀ k, entryIter M (freshEntry sq pl) (fireTimes M k) =
      ⟨sq, pl, k + 2, min (2 ^ (k + 1)) (M + 1), min (2 ^ (k + 1)) (M + 1)⟩ := by
  intro k
  induction k with
  | zero =>
    have h := (entryIter_fire M sq pl 1 1 0).1
    have h1 : fireTimes M 0 = 1 := rfl
    rw [h1]
    simp only [freshEntry]
    simpa [pow_one] using h
  | succ k ih =>
    have hadd : fireTimes M (k + 1) = fireTimes M k + min (2 ^ (k + 1)) (M + 1) := rfl
    rw [hadd, entryIter_add, ih]
    have h2 : 1 ≤ 2 ^ (k + 1) := Nat.one_le_two_pow
    obtain ⟨B', hB⟩ : ∃ B', min (2 ^ (k + 1)) (M + 1) = B' + 1 :=
      ⟨min (2 ^ (k + 1)) (M + 1) - 1, by omega⟩
    rw [hB]
    have hfire := (entryIter_fire M sq pl (k + 2) (B' + 1) B').1
    rw [hfire]
    have hmin : min (2 * (B' + 1)) (M + 1) = min (2 ^ (k + 2)) (M + 1) := by
      have hB' : B' + 1 = min (2 ^ (k + 1)) (M + 1) := hB.symm
      have hpow : 2 ^ (k + 2) = 2 * 2 ^ (k + 1) := by ring
      omega
    rw [hmin]

lemma fires_at_fireTimes (M sq : Nat) (pl : List Nat) :
    ∀ k, firesAt M (freshEntry sq pl) (fireTimes M k) = true := by
  intro k
  cases k with
  | zero =>
    show (entryTick M (entryIter M (freshEntry sq pl) (1 - 1))).2 = true
    simp [entryIter, freshEntry, entryTick]
  | succ k =>
    unfold firesAt
    have h2 : 1 ≤ 2 ^ (k + 1) := Nat.one_le_two_pow
    obtain ⟨B', hB⟩ : ∃ B', min (2 ^ (k + 1)) (M + 1) = B' + 1 :=
      ⟨min (2 ^ (k + 1)) (M + 1) - 1, by omega⟩
    have hadd : fireTimes M (k + 1) - 1 = fireTimes M k + B' := by
      have h : fireTimes M (k + 1) = fireTimes M k + min (2 ^ (k + 1)) (M + 1) := rfl
      omega
    rw [hadd, entryIter_add, entryIter_fireTimes, hB]
    exact (entryIter_fire M sq pl (k + 2) (B' + 1) B').2

lemma no_fire_between (M sq : Nat) (pl : List Nat) :
    ∀ k t, fireTimes M k < t → t < fireTimes M (k + 1) →
      firesAt M (freshEntry sq pl) t = false := by
  intro k t h1 h2
  unfold firesAt
  have hft : fireTimes M (k + 1) = fireTimes M k + min (2 ^ (k + 1)) (M + 1) := rfl
  have hadd : t - 1 = fireTimes M k + (t - 1 - fireTimes M k) := by omega
  rw [hadd, entryIter_add, entryIter_fireTimes]
  have hj : t - 1 - fireTimes M k < min (2 ^ (k + 1)) (M + 1) := by omega
  rw [entryIter_countdown M sq pl (k + 2) (min (2 ^ (k + 1)) (M + 1))
    (min (2 ^ (k + 1)) (M + 1)) (t - 1 - fireTimes M k) hj]
  simp only [entryTick]
  rw [if_neg (show ¬((⟨sq, pl, k + 2, min (2 ^ (k + 1)) (M + 1) - (t - 1 - fireTimes M k),
      min (2 ^ (k + 1)) (M + 1)⟩ : WindowEntry).epochsUntilRetry - 1 = 0)
    from by
      show ¬(min (2 ^ (k + 1)) (M + 1) - (t - 1 - fireTimes M k) - 1 = 0)
      omega)]

lemma fireTimes_gap_pos (M : Nat) : ∀ k, fireTimes M k < fireTimes M (k + 1) := by
  intro k
  have h2 : 1 ≤ 2 ^ (k + 1) := Nat.one_le_two_pow
  have h : fireTimes M (k + 1) = fireTimes M k + min (2 ^ (k + 1)) (M + 1) := rfl
  omega

lemma fireTimes_locate (M : Nat) :
    ∀ t, 1 ≤ t → ∃ k, fireTimes M k ≤ t ∧ t < fireTimes M (k + 1) := by
  intro t
  induction t with
  | zero => intro h; omega
  | succ t ih =>
    intro _
    by_cases ht : t = 0
    · subst ht
      refine ⟨0, le_refl _, ?_⟩
      exact fireTimes_gap_pos M 0
    · obtain ⟨k, hk1, hk2⟩ := ih (by omega)
      by_cases hlt : t + 1 < fireTimes M (k + 1)
      · exact ⟨k, by omega, hlt⟩
      · refine ⟨k + 1, by omega, ?_⟩
        have := fireTimes_gap_pos M (k + 1)
        omega

/-- Claim C6: for a fresh windowed entry, the ticks on which it is
retransmitted are exactly the partial sums of the gap sequence
`min(2^k, MaxBackOffInterval + 1)` — the per-message back-off starts at 1 and
doubles after each retry, each epoch gap capped at `MaxBackOffInterval + 1`;
`MaxBackOffInterval = 0` retransmits every epoch; and the epoch tick updates
window entries independently of each other. -/
theorem backoff_schedule (M sq : Nat) (pl : List Nat) :
    (∀ t, 1 ≤ t →
        (firesAt M (freshEntry sq pl) t = true ↔ ∃ k, t = fireTimes M k)) ∧
      (fireTimes M 0 = min (2 ^ 0) (M + 1) ∧
        ∀ k, fireTimes M (k + 1) - fireTimes M k = min (2 ^ (k + 1)) (M + 1)) ∧
      (M = 0 → ∀ t, 1 ≤ t → firesAt 0 (freshEntry sq pl) t = true) ∧
      (∀ (P : Params) (s : SendState),
        (tickOp P s).1.window =
          s.window.map (fun e => (entryTick P.MaxBackOffInterval e).1)) := by
  have hiff : ∀ t, 1 ≤ t →
      (firesAt M (freshEntry sq pl) t = true ↔ ∃ k, t = fireTimes M k) := by
    intro t ht
    constructor
    · intro hf
      obtain ⟨k, hk1, hk2⟩ := fireTimes_locate M t ht
      rcases eq_or_lt_of_le hk1 with heq | hlt
      · exact ⟨k, heq.symm⟩
      · rw [no_fire_between M sq pl k t hlt hk2] at hf
        cases hf
    · rintro ⟨k, rfl⟩
      exact fires_at_fireTimes M sq pl k
  refine ⟨hiff, ⟨?_, fun k => ?_⟩, ?_, fun P s => rfl⟩
  · have h : fireTimes M 0 = 1 := rfl
    simp [h]
  · have h2 : 1 ≤ 2 ^ (k + 1) := Nat.one_le_two_pow
    have h : fireTimes M (k + 1) = fireTimes M k + min (2 ^ (k + 1)) (M + 1) := rfl
    omega
  · rintro rfl t ht
    refine (hiff t ht).mpr ⟨t - 1, ?_⟩
    have hz : ∀ j, fireTimes 0 j = j + 1 := by
      intro j
      induction j with
      | zero => rfl
      | succ j ihj =>
        have h : fireTimes 0 (j + 1) = fireTimes 0 j + min (2 ^ (j + 1)) 1 := rfl
        have h2 : 1 ≤ 2 ^ (j + 1) := Nat.one_le_two_pow
        omega
    rw [hz]
    omega

/-- Concrete instances of claim C6: with `MaxBackOffInterval = 4` the third
tick retransmits (second retransmission, gap 2 after the first); with
`MaxBackOffInterval = 0` every tick retransmits. -/
theorem backoff_schedule_witness :
    firesAt 4 (freshEntry 0 []) 3 = true ∧ firesAt 0 (freshEntry 0 []) 2 = true :=
  ⟨((backoff_schedule 4 0 []).1 3 (by decide)).mpr ⟨1, by decide⟩,
    (backoff_schedule 0 0 []).2.2.1 rfl 2 (by decide)⟩

/-- The ticks (0 = the initial transmission, then 1-indexed epochs) at which
a fresh windowed entry is put on the wire during the first `N` epochs. -/
def transmissionTimes (M N sq : Nat) (pl : List Nat) : List Nat :=
  0 :: (List.range N).filterMap
    (fun t => if firesAt M (freshEntry sq pl) (t + 1) = true then some (t + 1)
      else none)

/-- Claim C7 (counterexample): with `MaxBackOffInterval = 4` over 14 epochs,
the transmissions of a windowed message happen at epoch offsets
0, 1, 3, 7, 12 from the first send — not at offsets 0, 1, 3, 7, 11, which is
what "epochs 1, 2, 4, 8, 12 relative to the first send" asserts (the fifth
gap is capped at `MaxBackOffInterval + 1 = 5`, not at 4). -/
theorem transmissionTimes_counterexample :
    transmissionTimes 4 14 0 [] = [0, 1, 3, 7, 12] ∧
      transmissionTimes 4 14 0 [] ≠ [0, 1, 3, 7, 11] := by
  constructor
  · decide
  · decide

/-- Claim C7 (amended): with `EpochMillis = 2000`, `MaxBackOffInterval = 4`,
`WindowSize = 5` and all acks dropped, over 14 epochs each windowed message
is transmitted exactly 5 times, at epoch offsets 0, 1, 3, 7, 12 from its
first send (gaps 1, 2, 4, 5), so the total on-wire Data count is
`WindowSize x numClients x 5`. -/
theorem transmissionTimes_five :
    transmissionTimes 4 14 0 [] = [0, 1, 3, 7, 12] ∧
      (transmissionTimes 4 14 0 []).length = 5 ∧
      ∀ wsize numClients : Nat,
        wsize * numClients * (transmissionTimes 4 14 0 []).length =
          wsize * numClients * 5 := by
  refine ⟨by decide, by decide, fun w n => ?_⟩
  have h : (transmissionTimes 4 14 0 []).length = 5 := by decide
  rw [h]

/-! ### Claim C9: ISN progression

The handshake lives in the (absent) client/server implementation; the trace
below is modelled from the spec. -/

/-- Modelled from the spec: the ordered wire trace (message type, ConnID,
SeqNum) of the scenario where a client connects with initial sequence number
`n` and writes one payload that the server reads.  The trace consists of: the
`Connect` carrying the ISN with ConnID 0 (section 3, section 4.3); the
server's handshake acknowledgment `Ack(ConnID, ISN)` (section 4.4
"Connection acceptance"); the Data message whose sequence the sender model
assigns (`next_send_seq` starts at `ISN + 1`, section 4.2); and the server's
`Ack` echoing each Data sequence (section 4.2 inbound data path, step 1). -/
def scenarioISN (n connID : Nat) (p : List Nat) : List (MsgType × Nat × Nat) :=
  (MsgType.MsgConnect, 0, n) :: (MsgType.MsgAck, connID, n) ::
    ((writeOp ⟨5, 2000, 1, 0, 1⟩ (initSend n) p).2.map
        (fun q => (MsgType.MsgData, connID, q)) ++
      (writeOp ⟨5, 2000, 1, 0, 1⟩ (initSend n) p).2.map
        (fun q => (MsgType.MsgAck, connID, q)))

/-- Claim C9 (counterexample): at ISN 42 the full non-heartbeat wire trace
carries the sequence numbers 42, 42, 43, 43 — the Connect and the handshake
Ack both carry 42 — not "exactly 42, 43, 43" as claimed; the claimed triple
only appears once the Connect (which carries ConnID 0, not the assigned ID)
is excluded. -/
theorem scenarioISN_counterexample :
    ((scenarioISN 42 1 [7]).filter
        (fun m => ¬(m.1 = MsgType.MsgAck ∧ m.2.2 = 0))).map (fun m => m.2.2) =
      [42, 42, 43, 43] ∧
      ((scenarioISN 42 1 [7]).filter
        (fun m => ¬(m.1 = MsgType.MsgAck ∧ m.2.2 = 0))).map (fun m => m.2.2) ≠
      [42, 43, 43] := by
  constructor <;> decide

/-- Claim C9 (amended): for every client ISN `n > 0` and assigned connection
ID (positive, per section 4.4), the wire messages carrying that connection's
ID, excluding heartbeat `Ack(0)`, carry exactly the sequence numbers `n` (the
server's handshake Ack), `n + 1` (the Data), `n + 1` (the Ack of that Data);
the Connect itself carries sequence `n` but ConnID 0.  This holds
independently of the payload and of the ISNs chosen by other clients. -/
theorem scenarioISN_progression (n connID : Nat) (p : List Nat)
    (hc : 0 < connID) (hn : 0 < n) :
    ((scenarioISN n connID p).filter
        (fun m => m.2.1 = connID ∧ ¬(m.1 = MsgType.MsgAck ∧ m.2.2 = 0))).map
      (fun m => m.2.2) = [n, n + 1, n + 1] := by
  have hw : (writeOp ⟨5, 2000, 1, 0, 1⟩ (initSend n) p).2 = [n + 1] := by
    rw [writeOp, if_pos]
    · rfl
    · constructor
      · show (initSend n).window.length < flightCap ⟨5, 2000, 1, 0, 1⟩
        simp [initSend, flightCap]
      · show (initSend n).nextSendSeq < (initSend n).oldestUnacked + 1
        simp [initSend]
  have h0 : ¬((0 : Nat) = connID) := by omega
  have h1 : ¬(n = 0) := by omega
  have h2 : ¬(n + 1 = 0) := by omega
  simp [scenarioISN, hw, h0, h1, h2]

/-- Concrete instance of the amended claim C9 at ISN 42, ConnID 1. -/
theorem scenarioISN_progression_witness :
    ((scenarioISN 42 1 [7]).filter
        (fun m => m.2.1 = 1 ∧ ¬(m.1 = MsgType.MsgAck ∧ m.2.2 = 0))).map
      (fun m => m.2.2) = [42, 43, 43] :=
  scenarioISN_progression 42 1 [7] (by decide) (by decide)

end LSP
